import Mathlib

/- Verification of the symbolic-expression engine: a shallow embedding of the
expression representation (`Operation`), the structural rewriter (`mappings.rs`),
the simplifier (`operations.rs`) and the infix parser (`algorithms.rs`).
Numeric leaves carry `f64` in the source; they are modelled as `Rat` here, so
IEEE-special behaviour (NaN, infinities, signed zero, rounding) is not modelled.
No claim below depends on such behaviour: the floating-point operations the
theorems exercise are exact small-integer arithmetic and parse-success tests. -/

/- ------------------------------------------------------------------ -/
/- Tokenizer and shunting-yard converter, from src/algorithms.rs.      -/
/- ------------------------------------------------------------------ -/

/-- Operator precedence table from `shunting_yard_algorithm`
(src/algorithms.rs lines 10-15). -/
def precedence (c : Char) : Nat :=
  match c with
  | '+' | '-' => 1
  | '*' | '/' => 2
  | '^' => 3
  | _ => 0

/-- ASCII digit test, as used by Rust float parsing. -/
def is_ascii_digit (c : Char) : Bool := '0' ≤ c && c ≤ '9'

/-- Recognizer for an optional exponent suffix followed by end of input, part
of the grammar of Rust `f64::from_str` (`('e'|'E') sign? digit+` or nothing). -/
def exp_ok : List Char → Bool
  | [] => true
  | c :: rest =>
      if c = 'e' ∨ c = 'E' then
        let rest2 := match rest with
          | s :: r2 => if s = '+' ∨ s = '-' then r2 else rest
          | [] => []
        let p := rest2.span is_ascii_digit
        !p.1.isEmpty && p.2.isEmpty
      else false

/-- Whether `s.parse::<f64>()` succeeds: the grammar of Rust `f64::from_str`
(optional sign, then `inf`/`infinity`/`nan` case-insensitively, or a decimal
number `digit+ ('.' digit*)? exp?` / `'.' digit+ exp?`). -/
def parses_f64 (s : String) : Bool :=
  let cs := s.data
  let cs := match cs with
    | c :: rest => if c = '+' ∨ c = '-' then rest else cs
    | [] => []
  let lower := cs.map Char.toLower
  if lower = ['i', 'n', 'f'] ∨ lower = ['i', 'n', 'f', 'i', 'n', 'i', 't', 'y'] ∨
      lower = ['n', 'a', 'n'] then true
  else
    let p1 := cs.span is_ascii_digit
    match p1.2 with
    | '.' :: r2 =>
        let p2 := r2.span is_ascii_digit
        (!p1.1.isEmpty || !p2.1.isEmpty) && exp_ok p2.2
    | _ => !p1.1.isEmpty && exp_ok p1.2

/-- Numeric value of a digit run. -/
def digits_to_nat (l : List Char) : Nat :=
  l.foldl (fun a c => a * 10 + (c.toNat - 48)) 0

/-- Exact rational value of a decimal literal, modelling `s.parse::<f64>().unwrap()`.
The round-to-nearest-double step of the source is not modelled (no claim below
depends on a parsed numeric value), and `inf`/`nan` have no rational value (0 here). -/
def parse_f64_value (s : String) : ℚ :=
  let cs := s.data
  let sc : Bool × List Char := match cs with
    | '-' :: rest => (true, rest)
    | '+' :: rest => (false, rest)
    | _ => (false, cs)
  let p1 := sc.2.span is_ascii_digit
  let p2 : List Char × List Char := match p1.2 with
    | '.' :: r2 => r2.span is_ascii_digit
    | _ => ([], p1.2)
  let e : Int := match p2.2 with
    | c :: rest =>
        if c = 'e' ∨ c = 'E' then
          match rest with
          | '-' :: r3 => -(digits_to_nat (r3.takeWhile is_ascii_digit) : Int)
          | '+' :: r3 => (digits_to_nat (r3.takeWhile is_ascii_digit) : Int)
          | r3 => (digits_to_nat (r3.takeWhile is_ascii_digit) : Int)
        else 0
    | [] => 0
  let mant : ℚ := (digits_to_nat (p1.1 ++ p2.1) : ℚ) / (10 : ℚ) ^ p2.1.length
  let v := mant * (10 : ℚ) ^ e
  if sc.1 then -v else v

/-- The pop loop run for an incoming binary operator `x`
(src/algorithms.rs lines 42-48): pop stacked operators while their precedence
is not lower than that of `x`, emitting each to the output; the first
lower-precedence operator is pushed back and the loop stops. Returns the
emitted tokens in order and the remaining stack. -/
def opPop (x : Char) : List Char → List String × List Char
  | [] => ([], [])
  | y :: rest =>
      if precedence y < precedence x then ([], y :: rest)
      else
        let p := opPop x rest
        (String.mk [y] :: p.1, p.2)

/-- The pop loop run for `)` (src/algorithms.rs lines 56-63): pop operators to
the output until a `(` is found and discarded; `none` models the
`panic!("Mismatched parentheses")` when the stack empties first. -/
def closeParen : List Char → Option (List String × List Char)
  | [] => none
  | op :: rest =>
      if op = '(' then some ([], rest)
      else (closeParen rest).map (fun p => (String.mk [op] :: p.1, p.2))

/-- One-token emission for a closed brace buffer `buf` (which includes the
opening `{`; the closing `}` is appended here): strip all braces, emit the
stripped text if it parses as a float, otherwise emit the raw buffer
(src/algorithms.rs lines 20-35). -/
def braceToken (buf : List Char) : String :=
  let full := buf ++ ['}']
  let cleaned := full.filter (fun x => x != '{' && x != '}')
  if parses_f64 (String.mk cleaned) then String.mk cleaned else String.mk full

/-- The character loop of `shunting_yard_algorithm` (src/algorithms.rs lines
18-77), carried out over the remaining input with the output sequence, the
operator stack (head = top of the Vec) and the brace buffer as state. `none`
models the mismatched-parenthesis panic. -/
def syLoop : List Char → List String → List Char → List Char →
    Option (List String × List Char)
  | [], out, stack, _buf => some (out, stack)
  | c :: cs, out, stack, buf =>
      if buf ≠ [] then
        if c = '}' then syLoop cs (out ++ [braceToken buf]) stack []
        else syLoop cs out stack (buf ++ [c])
      else
        if c = '+' ∨ c = '-' ∨ c = '*' ∨ c = '/' then
          let p := opPop c stack
          syLoop cs (out ++ p.1) (c :: p.2) []
        else if c = '(' then syLoop cs out (c :: stack) []
        else if c = ')' then
          match closeParen stack with
          | none => none
          | some p => syLoop cs (out ++ p.1) p.2 []
        else if c = '{' then syLoop cs out stack ['{']
        else if c = ' ' then syLoop cs out stack []
        else syLoop cs (out ++ [String.mk [c]]) stack []

/-- `shunting_yard_algorithm` (src/algorithms.rs lines 6-83): run the character
loop, then append the remaining stacked operators to the output top-first; an
open brace buffer at end of input is silently dropped, as in the source. -/
def shunting_yard_algorithm (input : String) : Option (List String) :=
  (syLoop input.data [] [] []).map (fun p => p.1 ++ p.2.map (fun c => String.mk [c]))

/- ------------------------------------------------------------------ -/
/- The legacy binary Equation tree and the postfix tree builder.       -/
/- ------------------------------------------------------------------ -/

/-- Modelled from the spec: the legacy binary-form `Operation` enum that
`Equation` roots carry (spec section 3): operators
`Add, Subtract, Multiply, Divide, Exponentiation, Collect` and leaves
`Value(number)`, `Variable(name)`. Its Rust declaration is not among the
provided sources; only its variants are referenced by src/algorithms.rs and
src/equations.rs. -/
inductive EquationOp where
  | Add
  | Subtract
  | Multiply
  | Divide
  | Exponentiation
  | Collect
  | Value (v : ℚ)
  | Variable (name : String)
deriving DecidableEq, Repr

/-- The `Equation` struct (src/equations.rs lines 8-13): a root operation and
optional left / right children. -/
inductive Equation where
  | mk (root : EquationOp) (left : Option Equation) (right : Option Equation)

/-- Leaf-node construction for one postfix token
(src/algorithms.rs lines 107-110): a `Value` node if the token parses as a
float, otherwise a `Variable` node. -/
def tokenLeaf (x : String) : Equation :=
  if parses_f64 x then .mk (.Value (parse_f64_value x)) none none
  else .mk (.Variable x) none none

/-- One step of `binary_tree_algorithm`'s stack loop (src/algorithms.rs lines
89-112): an operator token pops two nodes (right popped before left, both
optional) and pushes an internal node; any other token pushes a leaf.
The stack head is the top. -/
def btStep (stack : List Equation) (x : String) : List Equation :=
  if x = "+" ∨ x = "-" ∨ x = "*" ∨ x = "/" then
    let right := stack.head?
    let rest1 := stack.tail
    let left := rest1.head?
    let rest2 := rest1.tail
    let v : EquationOp :=
      if x = "+" then .Add
      else if x = "-" then .Subtract
      else if x = "*" then .Multiply
      else .Divide
    .mk v left right :: rest2
  else tokenLeaf x :: stack

/-- `binary_tree_algorithm` (src/algorithms.rs lines 85-114): fold the postfix
tokens through the stack, then `*(stack.pop().unwrap())` — `none` models the
unwrap panic on an empty stack; any further stacked nodes are discarded. -/
def binary_tree_algorithm (input : List String) : Option Equation :=
  match input.foldl btStep [] with
  | [] => none
  | root :: _ => some root

/- ------------------------------------------------------------------ -/
/- The canonical Operation AST, from src/operations.rs.                -/
/- ------------------------------------------------------------------ -/

/-- Stand-in for the `Rc<dyn EquationMember>` payload of `Variable` leaves: an
external capability object carrying a string representation and a numeric
value (src/math.rs `EquationMember`). -/
structure VarData where
  name : String
  val : ℚ
deriving DecidableEq, Repr

/-- The `Operation` enum (src/operations.rs lines 9-20), the canonical
recursive expression type. `Value` carries `Rat` in place of `f64`. -/
inductive Operation where
  | Multiply (l : List Operation)
  | Negate (a : Option Operation)
  | Divide (n : Option Operation) (d : Option Operation)
  | Sum (l : List Operation)
  | Value (v : ℚ)
  | Text (s : String)
  | Mapping (i : Nat)
  | Equal (a : Option Operation) (b : Option Operation)
  | Variable (v : VarData)

/-- `Operation::matches` (src/operations.rs lines 285-296): coarse kind
comparison; `Value`, `Text` and `Mapping` leaves are interchangeable, while
`Variable` matches nothing (it has no arm in the source match). -/
def Operation.matches : Operation → Operation → Bool
  | .Sum _, .Sum _ => true
  | .Multiply _, .Multiply _ => true
  | .Negate _, .Negate _ => true
  | .Divide _ _, .Divide _ _ => true
  | .Mapping _, .Mapping _ => true
  | .Value _, .Value _ => true
  | .Value _, .Text _ => true
  | .Value _, .Mapping _ => true
  | .Text _, .Value _ => true
  | .Text _, .Text _ => true
  | .Text _, .Mapping _ => true
  | .Mapping _, .Value _ => true
  | .Mapping _, .Text _ => true
  | .Equal _ _, .Equal _ _ => true
  | _, _ => false

mutual

/-- `Operation::compare_structure` (src/operations.rs lines 437-461), with the
source's match-arm order: equal-length pairwise comparison for `Sum`/`Multiply`,
`Negate` transparently unwrapped on either side (note the argument swap when
the right side is the `Negate`), both child pairs for `Divide`, a `Mapping`
wildcard on either side always matches, and otherwise coarse `matches`. -/
def Operation.compare_structure : Operation → Operation → Bool
  | .Sum ls, .Sum rs => ls.length == rs.length && compareList ls rs
  | .Multiply ls, .Multiply rs => ls.length == rs.length && compareList ls rs
  | .Negate (some ls), .Negate (some rs) => ls.compare_structure rs
  | .Negate (some ls), rs => ls.compare_structure rs
  | ls, .Negate (some rs) => rs.compare_structure ls
  | .Divide (some lsn) (some lsd), .Divide (some rsn) (some rsd) =>
      let denominator : Bool := lsd.compare_structure rsd
      let numerator_match : Bool := lsn.compare_structure rsn
      denominator && numerator_match
  | _, .Mapping _ => true
  | .Mapping _, _ => true
  | a, b => a.matches b
termination_by a b => sizeOf a + sizeOf b

/-- Pairwise structural comparison of zipped child lists (the `zip` loop inside
`compare_structure`; the length equality is checked by the caller). -/
def compareList : List Operation → List Operation → Bool
  | l :: ls, r :: rs => l.compare_structure r && compareList ls rs
  | _, _ => true
termination_by l r => sizeOf l + sizeOf r

end

mutual

/-- `EquationMember::value` for `Operation` (src/operations.rs lines 92-117).
The `panic!("Not implemented")` arms for incomplete nodes (`Negate(None)`,
`Divide`/`Equal` with a missing child, `Equal` itself) are modelled as 0; no
theorem below reaches them. Division is exact `Rat` division (`q / 0 = 0`
here, where `f64` would give an infinity or NaN). -/
def Operation.value : Operation → ℚ
  | .Multiply l => valueProd 1 l
  | .Negate (some a) => -a.value
  | .Sum l => valueSum 0 l
  | .Divide (some a) (some b) => a.value / b.value
  | .Value a => a
  | .Mapping _ => 1
  | .Text _ => 1
  | .Variable a => a.val
  | _ => 0
termination_by o => sizeOf o

/-- The running product over a `Multiply` child list (`product *= item.value()`). -/
def valueProd (acc : ℚ) : List Operation → ℚ
  | [] => acc
  | x :: xs => valueProd (acc * x.value) xs
termination_by l => sizeOf l

/-- The running total over a `Sum` child list (`sum += item.value()`). -/
def valueSum (acc : ℚ) : List Operation → ℚ
  | [] => acc
  | x :: xs => valueSum (acc + x.value) xs
termination_by l => sizeOf l

end

mutual

/-- `Operation::simplify` (src/operations.rs lines 121-223): `some` is a
simplified replacement, `none` means "no simplification possible". -/
def Operation.simplify : Operation → Option Operation
  | .Multiply l =>
      let p := mulFold 1 [] l
      let result := p.2 ++ [.Value p.1]
      match result with
      | [r] => some r
      | _ => some (.Multiply result)
  | .Sum l =>
      let p := sumFold 0 [] l
      let result := if p.1 ≠ 0 then p.2 ++ [.Value p.1] else p.2
      match result with
      | [r] => some r
      | _ => some (.Sum result)
  | .Negate (some child) =>
      match child with
      | .Negate second =>
          match second with
          | some second_child => some second_child
          | none => none
      | .Value a => some (.Value (-a))
      | .Sum vec => some (.Sum (vec.map (fun item => .Negate (some item))))
      | other =>
          match other.simplify with
          | some (.Value a) => some (.Value (-a))
          | some (.Negate (some x)) => some x
          | some result => some (.Negate (some result))
          | none => none
  | .Divide (some numerator) (some divisor) =>
      match numerator.simplify, divisor.simplify with
      | some (.Value a), some (.Value b) => some (.Value (a / b))
      | none, none => none
      | sa, sb => some (.Divide (some (sa.getD numerator)) (some (sb.getD divisor)))
  | .Equal (some ls) (some rs) =>
      match ls.simplify, rs.simplify with
      | none, none => none
      | sa, sb => some (.Equal (some (sa.getD ls)) (some (sb.getD rs)))
  | .Value a => some (.Value a)
  | _ => none
termination_by o => sizeOf o

/-- The `Multiply` child loop of `simplify` (src/operations.rs lines 123-136):
fold `Value` children into the coefficient, pass `Mapping`/`Text` through, and
for any other child fold its simplification's numeric value into the
coefficient when it simplifies, else pass it through. -/
def mulFold (coefficient : ℚ) (result : List Operation) :
    List Operation → ℚ × List Operation
  | [] => (coefficient, result)
  | x :: xs =>
      match x with
      | .Value a => mulFold (coefficient * a) result xs
      | .Mapping i => mulFold coefficient (result ++ [.Mapping i]) xs
      | .Text s => mulFold coefficient (result ++ [.Text s]) xs
      | other =>
          match other.simplify with
          | some child_simplification =>
              mulFold (coefficient * child_simplification.value) result xs
          | none => mulFold coefficient (result ++ [other]) xs
termination_by l => sizeOf l

/-- The `Sum` child loop of `simplify` (src/operations.rs lines 144-159):
fold `Value` children into the total, pass `Mapping`/`Text`/`Variable`
through, splice nested `Sum` children in unsimplified, and for any other child
fold its simplification's numeric value into the total when it simplifies,
else pass it through. -/
def sumFold (total : ℚ) (result : List Operation) :
    List Operation → ℚ × List Operation
  | [] => (total, result)
  | x :: xs =>
      match x with
      | .Value a => sumFold (total + a) result xs
      | .Mapping i => sumFold total (result ++ [.Mapping i]) xs
      | .Text s => sumFold total (result ++ [.Text s]) xs
      | .Variable v => sumFold total (result ++ [.Variable v]) xs
      | .Sum vec => sumFold total (result ++ vec) xs
      | other =>
          match other.simplify with
          | some child_simplification =>
              sumFold (total + child_simplification.value) result xs
          | none => sumFold total (result ++ [other]) xs
termination_by l => sizeOf l

end

mutual

/-- `PartialEq for Operation` (src/operations.rs lines 483-496). `Value`
equality is `a.value() == b.value()`, modelled as rational equality;
`Multiply`/`Sum` check that every left child is contained in the right list
and that the lengths agree; variants without an arm (`Equal`, `Variable`, and
all mixed pairs) compare unequal. -/
def opEq : Operation → Operation → Bool
  | .Value a, .Value b => decide (a = b)
  | .Text a, .Text b => a == b
  | .Multiply a, .Multiply b => opContainsAll a b && b.length == a.length
  | .Negate a, .Negate b => opEqOpt a b
  | .Divide a b, .Divide c d => opEqOpt a c && opEqOpt b d
  | .Sum a, .Sum b => opContainsAll a b && b.length == a.length
  | .Mapping a, .Mapping b => a == b
  | _, _ => false
termination_by a b => sizeOf a + sizeOf b

/-- Equality of optional children (`Option<Box<Operation>>` equality). -/
def opEqOpt : Option Operation → Option Operation → Bool
  | none, none => true
  | some a, some b => opEq a b
  | _, _ => false
termination_by a b => sizeOf a + sizeOf b

/-- `a.iter().all(|x| b.contains(x))` over child lists. -/
def opContainsAll : List Operation → List Operation → Bool
  | [], _ => true
  | x :: xs, b => opContains b x && opContainsAll xs b
termination_by a b => sizeOf a + sizeOf b

/-- `Vec::contains`: some element of the list equals `x` (element on the left,
as in `*it == *x`). -/
def opContains : List Operation → Operation → Bool
  | [], _ => false
  | y :: ys, x => opEq y x || opContains ys x
termination_by l x => sizeOf l + sizeOf x

end

/- ------------------------------------------------------------------ -/
/- The structural rewriter, from src/mappings.rs.                      -/
/- ------------------------------------------------------------------ -/

/-- The rewrite library `expansions()` (src/mappings.rs lines 9-33):
distribution of division over a 2-term and a 3-term sum, with `Mapping`
wildcards. -/
def expansions : List (Operation × Operation) :=
  [ (.Divide (some (.Sum [.Mapping 0, .Mapping 1])) (some (.Mapping 2)),
     .Sum [.Divide (some (.Mapping 0)) (some (.Mapping 2)),
           .Divide (some (.Mapping 1)) (some (.Mapping 2))]),
    (.Divide (some (.Sum [.Mapping 0, .Mapping 1, .Mapping 2])) (some (.Mapping 3)),
     .Sum [.Divide (some (.Mapping 0)) (some (.Mapping 3)),
           .Divide (some (.Mapping 1)) (some (.Mapping 3)),
           .Divide (some (.Mapping 2)) (some (.Mapping 3))]) ]

mutual

/-- `create_mapping_index` (src/mappings.rs lines 40-61): collect the
components of the input in traversal order — children of `Sum`/`Multiply`
recursively, a `Negate` over a leaf as a whole, otherwise the `Negate` child
recursively, both sides of `Divide`/`Equal`, and every leaf itself. -/
def create_mapping_index : Operation → List Operation
  | .Multiply contents => createIndexList contents
  | .Sum contents => createIndexList contents
  | .Negate (some a) =>
      match a with
      | .Value v => [.Negate (some (.Value v))]
      | .Text s => [.Negate (some (.Text s))]
      | .Mapping i => [.Negate (some (.Mapping i))]
      | .Variable v => [.Negate (some (.Variable v))]
      | other => create_mapping_index other
  | .Divide (some n) (some d) => create_mapping_index n ++ create_mapping_index d
  | .Equal (some n) (some d) => create_mapping_index n ++ create_mapping_index d
  | .Value v => [.Value v]
  | .Text s => [.Text s]
  | .Mapping i => [.Mapping i]
  | .Variable v => [.Variable v]
  | _ => []
termination_by o => sizeOf o

/-- The `for x in contents` extension loop of `create_mapping_index`. -/
def createIndexList : List Operation → List Operation
  | [] => []
  | x :: xs => create_mapping_index x ++ createIndexList xs
termination_by l => sizeOf l

end

mutual

/-- `apply_mapping` (src/mappings.rs lines 67-92): walk the replacement
template; `Sum`/`Multiply` children and both `Divide`/`Equal` sides are
rewritten recursively; a `Negate` whose child is a `Value`/`Text` leaf becomes
`Value(0)` and any other `Negate` is left unchanged (its child is not
traversed); bare `Value`/`Text` leaves become `Value(0)`; a `Mapping(i)` leaf
is replaced by the `i`-th mapping entry when the index is in range and is
otherwise left unchanged; anything else is returned unchanged. -/
def apply_mapping (input : Operation) (mappings : List Operation) : Operation :=
  match input with
  | .Multiply contents => .Multiply (applyList contents mappings)
  | .Sum contents => .Sum (applyList contents mappings)
  | .Negate (some a) =>
      match a with
      | .Value _ => .Value 0
      | .Text _ => .Value 0
      | other => .Negate (some other)
  | .Divide (some n) (some d) =>
      .Divide (some (apply_mapping n mappings)) (some (apply_mapping d mappings))
  | .Equal (some n) (some d) =>
      .Equal (some (apply_mapping n mappings)) (some (apply_mapping d mappings))
  | .Value _ => .Value 0
  | .Text _ => .Value 0
  | .Mapping index =>
      match mappings.get? index with
      | some a => a
      | none => .Mapping index
  | other => other
termination_by sizeOf input

/-- The `iter_mut().for_each` rewrite of `Sum`/`Multiply` children inside
`apply_mapping`. -/
def applyList (l : List Operation) (mappings : List Operation) : List Operation :=
  match l with
  | [] => []
  | x :: xs => apply_mapping x mappings :: applyList xs mappings
termination_by sizeOf l

end

/-- `map` (src/mappings.rs lines 98-117): remember whether the input is a
`Negate`, replace the input by the replacement of the first rule whose
pattern it structurally matches (else keep it), substitute the input's
extracted component list through the result, and re-apply the `Negate`
wrapper when one was remembered. -/
def map (input : Operation) (mapping : List (Operation × Operation)) : Operation :=
  let negate : Bool := match input with
    | .Negate (some _) => true
    | _ => false
  let output : Operation :=
    match mapping.find? (fun ab => input.compare_structure ab.1) with
    | some ab => ab.2
    | none => input
  let mappings : List Operation := create_mapping_index input
  let x := apply_mapping output mappings
  if negate then .Negate (some x) else x

/-- `expand` (src/mappings.rs lines 125-132): run `map` against the expansion
library; a result structurally comparing equal to the input is reported as
`Err` carrying that result, otherwise `Ok` carrying it. -/
def expand (input : Operation) : Except Operation Operation :=
  let output : Operation := map input expansions
  if output.compare_structure input then .error output else .ok output

/-- The expression an `Operation::simplify` call leaves behind: the simplified
replacement when one is returned, the operation itself when the source
reports `None` ("cannot be simplified", a no-op). -/
def simplifyOrSelf (e : Operation) : Operation := e.simplify.getD e

/- ------------------------------------------------------------------ -/
/- Parser theorems: claims C4, C5, C6, C7.                             -/
/- ------------------------------------------------------------------ -/

/-- The operator pop loop is pop-while-higher-or-equal-precedence: it emits the
maximal stack prefix of operators whose precedence is at least that of the
incoming operator `x` and leaves the rest of the stack. -/
theorem opPop_eq (x : Char) : ∀ stack : List Char,
    opPop x stack =
      ((stack.takeWhile (fun y => decide (precedence x ≤ precedence y))).map
          (fun y => String.mk [y]),
        stack.dropWhile (fun y => decide (precedence x ≤ precedence y)))
  | [] => rfl
  | y :: rest => by
      by_cases h : precedence y < precedence x
      · simp [opPop, h, Nat.not_le.mpr h]
      · simp [opPop, h, Nat.not_lt.mp h, opPop_eq x rest]

/-- The stack left by the operator pop loop only holds characters that were
already on the stack. -/
theorem mem_opPop_snd {x y : Char} {stack : List Char}
    (h : y ∈ (opPop x stack).2) : y ∈ stack := by
  rw [opPop_eq] at h
  exact (List.dropWhile_sublist _).mem h

/-- The pop loop for a closing parenthesis fails (panics) when no `(` is on
the operator stack. -/
theorem closeParen_eq_none : ∀ stack : List Char, '(' ∉ stack →
    closeParen stack = none
  | [], _ => rfl
  | op :: rest, h => by
      have hop : op ≠ '(' := fun he => h (he ▸ List.mem_cons_self op rest)
      simp [closeParen, hop, closeParen_eq_none rest (fun hm => h (List.mem_cons_of_mem _ hm))]

/-- On brace-free input with no `(`, reaching a `)` makes the whole character
loop fail: no `(` can ever be on the stack, so the `)` pop loop panics. -/
theorem syLoop_no_open_paren : ∀ (cs : List Char) (out : List String) (stack : List Char),
    '(' ∉ stack → '(' ∉ cs → '{' ∉ cs → ')' ∈ cs →
    syLoop cs out stack [] = none := by
  intro cs
  induction cs with
  | nil => intro out stack _ _ _ h4; simp at h4
  | cons c cs ih =>
      intro out stack h1 h2 h3 h4
      have hcp : c ≠ '(' := fun he => h2 (he ▸ List.mem_cons_self c cs)
      have hcb : c ≠ '{' := fun he => h3 (he ▸ List.mem_cons_self c cs)
      have h2' : '(' ∉ cs := fun hm => h2 (List.mem_cons_of_mem _ hm)
      have h3' : '{' ∉ cs := fun hm => h3 (List.mem_cons_of_mem _ hm)
      by_cases hcc : c = ')'
      · subst hcc
        simp [syLoop, closeParen_eq_none stack h1]
      · have h4' : ')' ∈ cs := by
          rcases List.mem_cons.mp h4 with he | hm
          · exact absurd he.symm hcc
          · exact hm
        by_cases hop : c = '+' ∨ c = '-' ∨ c = '*' ∨ c = '/'
        · have hs : '(' ∉ c :: (opPop c stack).2 := by
            intro hm
            rcases List.mem_cons.mp hm with he | hm2
            · exact hcp he.symm
            · exact h1 (mem_opPop_snd hm2)
          simp only [syLoop, ne_eq, not_true_eq_false, if_false, if_pos hop,
            reduceIte]
          exact ih _ _ hs h2' h3' h4'
        · by_cases hsp : c = ' '
          · subst hsp
            simp only [syLoop, ne_eq, not_true_eq_false, if_false, if_pos, hop,
              reduceIte]
            exact ih _ _ h1 h2' h3' h4'
          · simp only [syLoop, ne_eq, not_true_eq_false, if_false, hop, hcp, hcc,
              hcb, hsp, reduceIte]
            exact ih _ _ h1 h2' h3' h4'

/-- Claim C4, counterexample: the input `"(a"` has an unmatched `(`, yet the
tokenizer reports no failure — it returns the partial postfix sequence
`["a", "("]`, the leftover `(` flushed into the output by the end-of-input
stack drain. -/
theorem shunting_yard_unmatched_open_paren_partial_output :
    shunting_yard_algorithm "(a" = some ["a", "("] := by decide

/-- Claim C4 (amended): an unmatched `)` is always a reported failure: on any
input containing a `)` but no `(` and no brace token, the tokenizer fails and
returns no token sequence. An unmatched `(` is not detected (see the
counterexample). -/
theorem shunting_yard_unmatched_close_paren_fails :
    ∀ s : String, '(' ∉ s.data → '{' ∉ s.data → ')' ∈ s.data →
      shunting_yard_algorithm s = none := by
  intro s h1 h2 h3
  unfold shunting_yard_algorithm
  rw [syLoop_no_open_paren s.data [] [] (by simp) h1 h2 h3]
  rfl

/-- Claim C4, witness: the amended theorem applied to `"a)b"`. -/
theorem shunting_yard_unmatched_close_paren_fails_witness :
    shunting_yard_algorithm "a)b" = none :=
  shunting_yard_unmatched_close_paren_fails "a)b" (by decide) (by decide) (by decide)

/-- Claim C5, counterexample: `^` is not handled by the operator arm of the
tokenizer (only `+ - * /` are); it is emitted directly to the output like any
other plain character, so `"a^b"` tokenizes to `["a", "^", "b"]`, not to the
postfix `["a", "b", "^"]` that stack treatment with precedence 3 would give. -/
theorem shunting_yard_caret_not_an_operator :
    shunting_yard_algorithm "a^b" = some ["a", "^", "b"] ∧
      ["a", "^", "b"] ≠ ["a", "b", "^"] := by
  constructor
  · decide
  · decide

/-- Claim C5 (amended): each of the four handled binary operators `+ - * /`
pops every stacked operator of higher-or-equal precedence to the output and
then pushes itself (ties emit the stack top: left-associativity), with the
table `+ - = 1`, `* / = 2`, `^ = 3` (a dead entry: `^` never reaches the
operator path) and any other symbol, such as a stacked `(`, at 0. -/
theorem shunting_yard_operator_pops_ge_precedence :
    ∀ (c : Char) (cs : List Char) (out : List String) (stack : List Char),
      c = '+' ∨ c = '-' ∨ c = '*' ∨ c = '/' →
      (syLoop (c :: cs) out stack [] =
        syLoop cs
          (out ++ (stack.takeWhile (fun y => decide (precedence c ≤ precedence y))).map
            (fun y => String.mk [y]))
          (c :: stack.dropWhile (fun y => decide (precedence c ≤ precedence y))) []) ∧
      precedence '+' = 1 ∧ precedence '-' = 1 ∧ precedence '*' = 2 ∧
      precedence '/' = 2 ∧ precedence '^' = 3 ∧ precedence '(' = 0 := by
  intro c cs out stack hc
  refine ⟨?_, rfl, rfl, rfl, rfl, rfl, rfl⟩
  simp only [syLoop, ne_eq, not_true_eq_false, if_false, if_pos hc, reduceIte]
  rw [opPop_eq]

/-- Claim C5, witness: the amended theorem applied to `+` arriving over the
stack `['*']`: the higher-precedence `*` is popped to the output and `+` is
pushed. -/
theorem shunting_yard_operator_pops_ge_precedence_witness :
    (syLoop ['+'] [] ['*'] [] = syLoop [] ["*"] ['+'] []) ∧
      precedence '+' = 1 ∧ precedence '-' = 1 ∧ precedence '*' = 2 ∧
      precedence '/' = 2 ∧ precedence '^' = 3 ∧ precedence '(' = 0 :=
  shunting_yard_operator_pops_ge_precedence '+' [] [] ['*'] (Or.inl rfl)

/-- Folding leaf tokens through the tree-builder stack pushes one leaf node
per token: the final stack is the reversed token list as leaves. -/
theorem btRun_leaves : ∀ (ts : List String) (stack : List Equation),
    (∀ t ∈ ts, ¬(t = "+" ∨ t = "-" ∨ t = "*" ∨ t = "/")) →
    ts.foldl btStep stack = ts.reverse.map tokenLeaf ++ stack := by
  intro ts
  induction ts with
  | nil => intro stack _; rfl
  | cons t ts ih =>
      intro stack h
      have ht : ¬(t = "+" ∨ t = "-" ∨ t = "*" ∨ t = "/") :=
        h t (List.mem_cons_self t ts)
      have h' : ∀ u ∈ ts, ¬(u = "+" ∨ u = "-" ∨ u = "*" ∨ u = "/") :=
        fun u hu => h u (List.mem_cons_of_mem _ hu)
      simp only [List.foldl_cons, btStep, if_neg ht, ih (tokenLeaf t :: stack) h',
        List.reverse_cons, List.map_append, List.map_cons, List.map_nil,
        List.append_assoc, List.cons_append, List.nil_append]

/-- Claim C6 (amended): the tree builder returns the top of its final stack:
an empty final stack (zero remaining nodes) is the unwrap panic, but two or
more remaining nodes are not detected — the most recent node is returned and
the rest silently discarded. Over operator-free token sequences the result is
therefore the leaf of the last token, whatever the stack size. -/
theorem binary_tree_returns_top_of_stack_leaves :
    ∀ ts : List String, (∀ t ∈ ts, ¬(t = "+" ∨ t = "-" ∨ t = "*" ∨ t = "/")) →
      binary_tree_algorithm ts = ts.getLast?.map tokenLeaf := by
  intro ts h
  unfold binary_tree_algorithm
  rw [btRun_leaves ts [] h, List.getLast?_eq_head?_reverse]
  cases ts.reverse with
  | nil => rfl
  | cons x xs => rfl

/-- Claim C6, witness: the amended theorem applied to `["c", "d"]` — two
leaves remain on the stack and the builder returns the top one. -/
theorem binary_tree_returns_top_of_stack_leaves_witness :
    binary_tree_algorithm ["c", "d"] = some (tokenLeaf "d") :=
  binary_tree_returns_top_of_stack_leaves ["c", "d"] (by decide)

/-- Claim C6, counterexample: the postfix sequence `["a", "b"]` leaves two
nodes on the stack, yet the builder reports no malformed-input error: it
returns the `b` leaf and silently drops the other node. -/
theorem binary_tree_extra_nodes_silently_dropped :
    binary_tree_algorithm ["a", "b"] =
      some (.mk (.Variable "b") none none) := rfl

/-- A non-empty brace buffer accumulates every character up to the first `}`,
which closes it and emits exactly one token. -/
theorem syLoop_buffer : ∀ (body cs : List Char) (out : List String)
    (stack buf : List Char), buf ≠ [] → '}' ∉ body →
    syLoop (body ++ '}' :: cs) out stack buf =
      syLoop cs (out ++ [braceToken (buf ++ body)]) stack [] := by
  intro body
  induction body with
  | nil =>
      intro cs out stack buf hb _
      simp [syLoop, hb]
  | cons c body ih =>
      intro cs out stack buf hb h
      have hc : c ≠ '}' := fun he => h (he ▸ List.mem_cons_self c body)
      have h' : '}' ∉ body := fun hm => h (List.mem_cons_of_mem _ hm)
      have hbc : buf ++ [c] ≠ [] := by simp
      have step : syLoop ((c :: body) ++ '}' :: cs) out stack buf =
          syLoop (body ++ '}' :: cs) out stack (buf ++ [c]) := by
        simp [syLoop, hb, hc]
      rw [step, ih cs out stack (buf ++ [c]) hbc h', List.append_assoc,
        List.singleton_append]

/-- Claim C7 (amended): a brace token `{body}` closed before end of input is
emitted as one single token: the brace-stripped text when it parses as a
float, and otherwise the raw buffer with its braces still attached. -/
theorem shunting_yard_brace_token_emission :
    ∀ body : List Char, '}' ∉ body →
      shunting_yard_algorithm (String.mk ('{' :: body ++ ['}'])) =
        some [if parses_f64 (String.mk (body.filter (fun x => x != '{' && x != '}'))) = true
              then String.mk (body.filter (fun x => x != '{' && x != '}'))
              else String.mk ('{' :: body ++ ['}'])] := by
  intro body h
  unfold shunting_yard_algorithm
  show (syLoop ('{' :: (body ++ ['}'])) [] [] []).map _ = _
  have hstep : syLoop ('{' :: (body ++ ['}'])) [] [] [] =
      syLoop (body ++ '}' :: []) [] [] ['{'] := by
    simp [syLoop]
  rw [hstep, syLoop_buffer body [] [] [] ['{'] (by simp) h]
  simp [syLoop, braceToken, List.filter_append]

/-- Claim C7, witness: the amended theorem applied to `{-1}`: the stripped
text `-1` parses as a float and is emitted bare. -/
theorem shunting_yard_brace_token_emission_witness :
    shunting_yard_algorithm (String.mk ['{', '-', '1', '}']) = some ["-1"] :=
  shunting_yard_brace_token_emission ['-', '1'] (by decide)

/-- Claim C7, counterexample: a brace token whose stripped text is symbolic is
emitted with its braces still attached — `"{ab}"` yields the token `"{ab}"`,
not the bare `"ab"` the claim describes. -/
theorem shunting_yard_symbolic_brace_token_keeps_braces :
    shunting_yard_algorithm "{ab}" = some ["{ab}"] ∧ ("{ab}" : String) ≠ "ab" := by
  constructor
  · decide
  · decide

/- ------------------------------------------------------------------ -/
/- Rewriter and equality theorems: claims C1, C2, C8, C9.              -/
/- ------------------------------------------------------------------ -/

/-- A `Value`, `Text` or `Variable` leaf — the leaf operands of claim C1. -/
def IsLeafVTV (x : Operation) : Prop :=
  (∃ q, x = .Value q) ∨ (∃ s, x = .Text s) ∨ (∃ v, x = .Variable v)

/-- Any `Value`/`Text`/`Variable` leaf structurally matches a `Mapping`
wildcard on the pattern side. -/
theorem cs_leaf_vs_mapping {x : Operation} (h : IsLeafVTV x) :
    ∀ i : Nat, x.compare_structure (.Mapping i) = true := by
  rcases h with ⟨a, rfl⟩ | ⟨a, rfl⟩ | ⟨a, rfl⟩ <;>
    intro i <;> simp [Operation.compare_structure]

/-- `create_mapping_index` collects a `Value`/`Text`/`Variable` leaf as the
singleton component list. -/
theorem cmi_leaf {x : Operation} (h : IsLeafVTV x) :
    create_mapping_index x = [x] := by
  rcases h with ⟨a, rfl⟩ | ⟨a, rfl⟩ | ⟨a, rfl⟩ <;> simp [create_mapping_index]

/-- Claim C1: for all leaf operands x, y, z (and w), `expand` distributes the
division over a 2-term and a 3-term sum: `(x+y)/z` rewrites to
`Ok(x/z + y/z)` and `(x+y+w)/z` to the 3-term sum of quotients. -/
theorem expand_distributes_divide_over_sum_of_leaves :
    ∀ x y z w : Operation, IsLeafVTV x → IsLeafVTV y → IsLeafVTV z → IsLeafVTV w →
      expand (.Divide (some (.Sum [x, y])) (some z)) =
        .ok (.Sum [.Divide (some x) (some z), .Divide (some y) (some z)]) ∧
      expand (.Divide (some (.Sum [x, y, w])) (some z)) =
        .ok (.Sum [.Divide (some x) (some z), .Divide (some y) (some z),
                   .Divide (some w) (some z)]) := by
  intro x y z w hx hy hz hw
  constructor <;>
    simp [expand, map, expansions, Operation.compare_structure, compareList,
      Operation.matches, create_mapping_index, createIndexList, apply_mapping,
      applyList, List.find?, cs_leaf_vs_mapping hx, cs_leaf_vs_mapping hy,
      cs_leaf_vs_mapping hz, cs_leaf_vs_mapping hw, cmi_leaf hx, cmi_leaf hy,
      cmi_leaf hz, cmi_leaf hw, List.get?]

/-- Claim C1, witness: the theorem applied to the leaves `1`, `b` (a `Text`),
a bound `Variable` `v` and `w`. -/
theorem expand_distributes_divide_over_sum_of_leaves_witness :
    expand (.Divide (some (.Sum [.Value 1, .Text "b"]))
        (some (.Variable ⟨"v", 0⟩))) =
      .ok (.Sum [.Divide (some (.Value 1)) (some (.Variable ⟨"v", 0⟩)),
                 .Divide (some (.Text "b")) (some (.Variable ⟨"v", 0⟩))]) ∧
    expand (.Divide (some (.Sum [.Value 1, .Text "b", .Text "w"]))
        (some (.Variable ⟨"v", 0⟩))) =
      .ok (.Sum [.Divide (some (.Value 1)) (some (.Variable ⟨"v", 0⟩)),
                 .Divide (some (.Text "b")) (some (.Variable ⟨"v", 0⟩)),
                 .Divide (some (.Text "w")) (some (.Variable ⟨"v", 0⟩))]) :=
  expand_distributes_divide_over_sum_of_leaves (.Value 1) (.Text "b")
    (.Variable ⟨"v", 0⟩) (.Text "w")
    (Or.inl ⟨1, rfl⟩) (Or.inr (Or.inl ⟨"b", rfl⟩))
    (Or.inr (Or.inr ⟨⟨"v", 0⟩, rfl⟩)) (Or.inr (Or.inl ⟨"w", rfl⟩))

/-- Claim C2: at the no-match input `x/y`, `expand` does return `Err`, but the
carried expression is not the unchanged input: `apply_mapping` has reset both
`Text` leaves to `Value(0)`, contradicting `expand`'s own documentation
("returns the original operation wrapped in Err()"). -/
theorem expand_no_match_zeroes_input :
    expand (.Divide (some (.Text "x")) (some (.Text "y"))) =
      .error (.Divide (some (.Value 0)) (some (.Value 0))) ∧
      (Operation.Divide (some (.Value 0)) (some (.Value 0))) ≠
        .Divide (some (.Text "x")) (some (.Text "y")) := by
  constructor
  · simp [expand, map, expansions, Operation.compare_structure, compareList,
      Operation.matches, create_mapping_index, createIndexList, apply_mapping,
      applyList, List.find?]
  · intro h
    simp at h

/-- Claim C8, counterexample: an out-of-range `Mapping` index does not
degenerate to `Value(0)`: `apply_mapping` leaves the `Mapping(5)` leaf
unchanged when the mapping list is empty. -/
theorem apply_mapping_out_of_range_keeps_mapping :
    apply_mapping (.Mapping 5) [] = .Mapping 5 ∧
      (Operation.Mapping 5) ≠ .Value 0 := by
  constructor
  · simp [apply_mapping]
  · intro h
    simp at h

/-- Claim C8 (amended): a `Mapping(i)` leaf in the template is replaced by the
`i`-th mapping entry when `i` is in range, and is left unchanged (still
`Mapping(i)`, not `Value(0)`) when `i` is out of range. -/
theorem apply_mapping_mapping_leaf_semantics :
    ∀ (mappings : List Operation) (i : Nat),
      (∀ h : i < mappings.length,
        apply_mapping (.Mapping i) mappings = mappings.get ⟨i, h⟩) ∧
      (mappings.length ≤ i → apply_mapping (.Mapping i) mappings = .Mapping i) := by
  intro mappings i
  constructor
  · intro h
    simp [apply_mapping, List.getElem?_eq_getElem h]
  · intro h
    simp [apply_mapping, List.getElem?_eq_none h]

/-- Claim C8, witness: the amended theorem applied to the one-entry mapping
list `[a]`: index 0 substitutes the entry, index 5 keeps the leaf. -/
theorem apply_mapping_mapping_leaf_semantics_witness :
    apply_mapping (.Mapping 0) [.Text "a"] = .Text "a" ∧
      apply_mapping (.Mapping 5) [.Text "a"] = .Mapping 5 :=
  ⟨(apply_mapping_mapping_leaf_semantics [.Text "a"] 0).1 (by decide),
   (apply_mapping_mapping_leaf_semantics [.Text "a"] 5).2 (by decide)⟩

/-- A `Value`, `Text` or `Mapping` leaf — the kinds on which the source
`PartialEq` is reflexive. -/
def IsEqLeaf (x : Operation) : Prop :=
  (∃ q, x = .Value q) ∨ (∃ s, x = .Text s) ∨ (∃ i, x = .Mapping i)

/-- `PartialEq` is reflexive on `Value`/`Text`/`Mapping` leaves. -/
theorem opEq_self_of_eq_leaf {x : Operation} (h : IsEqLeaf x) :
    opEq x x = true := by
  rcases h with ⟨q, rfl⟩ | ⟨s, rfl⟩ | ⟨i, rfl⟩ <;> simp [opEq]

/-- `Vec::contains` finds an element that is `==`-reflexive. -/
theorem opContains_of_mem {x : Operation} : ∀ {p : List Operation}, x ∈ p →
    opEq x x = true → opContains p x = true := by
  intro p
  induction p with
  | nil => intro h _; cases h
  | cons y ys ih =>
      intro h hx
      rcases List.mem_cons.mp h with rfl | hm
      · simp [opContains, hx]
      · simp [opContains, ih hm hx]

/-- The `all`/`contains` check succeeds when every left element occurs on the
right and is an `==`-reflexive leaf. -/
theorem opContainsAll_of_subset : ∀ l p : List Operation,
    (∀ x ∈ l, x ∈ p ∧ IsEqLeaf x) → opContainsAll l p = true := by
  intro l p
  induction l with
  | nil => intro _; simp [opContainsAll]
  | cons x xs ih =>
      intro h
      have hx := h x (List.mem_cons_self x xs)
      simp [opContainsAll, opContains_of_mem hx.1 (opEq_self_of_eq_leaf hx.2),
        ih (fun y hy => h y (List.mem_cons_of_mem _ hy))]

/-- Claim C9, counterexample: the `Sum`/`Multiply` arm of `PartialEq` is not
multiset equality — it checks equal length plus one-sided containment, so the
lists `[x, x, y]` and `[x, y, y]` compare `==` although their multisets
differ (as the distinct `Text "x"` counts show). -/
theorem operation_eq_not_multiset_equality :
    opEq (.Sum [.Text "x", .Text "x", .Text "y"])
        (.Sum [.Text "x", .Text "y", .Text "y"]) = true ∧
      ¬ ([Operation.Text "x", .Text "x", .Text "y"].Perm
          [.Text "x", .Text "y", .Text "y"]) := by
  constructor
  · simp [opEq, opContainsAll, opContains]
  · intro h
    have hc := h.countP_eq (fun o => o matches .Text "x")
    simp [List.countP_cons] at hc

/-- Claim C9 (amended): `==` on `Sum` and `Multiply` nodes checks equal length
plus one-sided containment of the left children in the right list; this is
permutation-insensitive on lists of `Value`/`Text`/`Mapping` leaves (kinds
with reflexive `==`): `Sum(l) == Sum(p)` and `Multiply(l) == Multiply(p)` for
every permutation `p` of such an `l`. It is not multiset equality (see the
counterexample), and it fails on `Variable` or `Equal` children, whose `==`
is never true. -/
theorem operation_eq_perm_invariant_on_leaf_lists :
    ∀ l p : List Operation, l.Perm p → (∀ x ∈ l, IsEqLeaf x) →
      opEq (.Sum l) (.Sum p) = true ∧ opEq (.Multiply l) (.Multiply p) = true := by
  intro l p hperm hleaf
  have hall : opContainsAll l p = true :=
    opContainsAll_of_subset l p (fun x hx => ⟨hperm.subset hx, hleaf x hx⟩)
  have hlen : p.length = l.length := hperm.length_eq.symm
  constructor <;> simp [opEq, hall, hlen]

/-- Claim C9, witness: the amended theorem applied to the two-leaf list
`[1, a]` and its swap. -/
theorem operation_eq_perm_invariant_on_leaf_lists_witness :
    opEq (.Sum [.Value 1, .Text "a"]) (.Sum [.Text "a", .Value 1]) = true ∧
      opEq (.Multiply [.Value 1, .Text "a"])
        (.Multiply [.Text "a", .Value 1]) = true :=
  operation_eq_perm_invariant_on_leaf_lists [.Value 1, .Text "a"]
    [.Text "a", .Value 1] (List.Perm.swap _ _ _)
    (by
      intro x hx
      rcases List.mem_cons.mp hx with rfl | hx2
      · exact Or.inl ⟨1, rfl⟩
      · rcases List.mem_cons.mp hx2 with rfl | hx3
        · exact Or.inr (Or.inl ⟨"a", rfl⟩)
        · cases hx3)

/- ------------------------------------------------------------------ -/
/- Simplifier theorems: claims C3 and C10.                             -/
/- ------------------------------------------------------------------ -/

/-- Claim C3, counterexample: one `simplify` pass flattens nested `Sum`s only
one level, so on `Sum[Sum[Sum[x, y], z]]` the second application still
changes the tree: `simplify(simplify(e))` is a 3-term sum while
`simplify(e)` is a 2-term one — unequal both under the source `PartialEq`
and structurally. -/
theorem simplify_not_idempotent_on_nested_sums :
    opEq (simplifyOrSelf (simplifyOrSelf
          (.Sum [.Sum [.Sum [.Text "x", .Text "y"], .Text "z"]])))
        (simplifyOrSelf (.Sum [.Sum [.Sum [.Text "x", .Text "y"], .Text "z"]])) =
      false ∧
    simplifyOrSelf (simplifyOrSelf
        (.Sum [.Sum [.Sum [.Text "x", .Text "y"], .Text "z"]])) ≠
      simplifyOrSelf (.Sum [.Sum [.Sum [.Text "x", .Text "y"], .Text "z"]]) := by
  constructor
  · simp [simplifyOrSelf, Operation.simplify, sumFold, opEq, opContainsAll,
      opContains]
  · simp [simplifyOrSelf, Operation.simplify, sumFold]

/-- A `Text`, `Mapping` or `Variable` leaf — the symbolic children a `Sum`
simplification passes through unchanged. -/
def IsSymLeaf (x : Operation) : Prop :=
  (∃ s, x = .Text s) ∨ (∃ i, x = .Mapping i) ∨ (∃ v, x = .Variable v)

/-- The `Sum` child loop passes a list of symbolic leaves straight through,
leaving the running total untouched. -/
theorem sumFold_symbolic : ∀ (l : List Operation) (t : ℚ) (r : List Operation),
    (∀ x ∈ l, IsSymLeaf x) → sumFold t r l = (t, r ++ l) := by
  intro l
  induction l with
  | nil => intro t r _; simp [sumFold]
  | cons x xs ih =>
      intro t r h
      have hxs : ∀ y ∈ xs, IsSymLeaf y := fun y hy => h y (List.mem_cons_of_mem _ hy)
      rcases h x (List.mem_cons_self x xs) with ⟨s, rfl⟩ | ⟨i, rfl⟩ | ⟨v, rfl⟩ <;>
        simp [sumFold, ih _ _ hxs]

/-- A symbolic leaf reports "no simplification possible". -/
theorem simplify_symbolic_leaf_none {x : Operation} (h : IsSymLeaf x) :
    x.simplify = none := by
  rcases h with ⟨s, rfl⟩ | ⟨i, rfl⟩ | ⟨v, rfl⟩ <;> simp [Operation.simplify]

/-- Claim C3 (amended): a single `Operation::simplify` pass is not idempotent
in general (nested `Sum`s are flattened one level per pass — see the
counterexample); it is idempotent on sums of symbolic leaves: for every list
`l` of `Text`/`Mapping`/`Variable` leaves, the simplification of `Sum(l)` is
a fixed point of `simplify`. -/
theorem simplify_idempotent_on_symbolic_leaf_sums :
    ∀ l : List Operation, (∀ x ∈ l, IsSymLeaf x) →
      simplifyOrSelf (simplifyOrSelf (.Sum l)) = simplifyOrSelf (.Sum l) := by
  intro l h
  match l, h with
  | [], _ => simp [simplifyOrSelf, Operation.simplify, sumFold]
  | [x], h =>
      have hx := h x (List.mem_cons_self x [])
      have h1 : Operation.simplify (.Sum [x]) = some x := by
        simp [Operation.simplify, sumFold_symbolic [x] 0 [] h]
      simp [simplifyOrSelf, h1, simplify_symbolic_leaf_none hx]
  | x :: y :: t, h =>
      have h1 : Operation.simplify (.Sum (x :: y :: t)) =
          some (.Sum (x :: y :: t)) := by
        simp [Operation.simplify, sumFold_symbolic (x :: y :: t) 0 [] h]
      simp [simplifyOrSelf, h1]

/-- Claim C3, witness: the amended theorem applied to `Sum[x, y]`. -/
theorem simplify_idempotent_on_symbolic_leaf_sums_witness :
    simplifyOrSelf (simplifyOrSelf (.Sum [.Text "x", .Text "y"])) =
      simplifyOrSelf (.Sum [.Text "x", .Text "y"]) :=
  simplify_idempotent_on_symbolic_leaf_sums [.Text "x", .Text "y"]
    (by
      intro x hx
      rcases List.mem_cons.mp hx with rfl | hx2
      · exact Or.inl ⟨"x", rfl⟩
      · rcases List.mem_cons.mp hx2 with rfl | hx3
        · exact Or.inl ⟨"y", rfl⟩
        · cases hx3)

/-- Folding a list of `Value` leaves through the `Sum` child loop adds their
sum to the running total and emits nothing. -/
theorem sumFold_values : ∀ (l : List ℚ) (t : ℚ) (r : List Operation),
    sumFold t r (l.map .Value) = (t + l.sum, r) := by
  intro l
  induction l with
  | nil => intro t r; simp [sumFold]
  | cons a l ih =>
      intro t r
      simp [sumFold, ih (t + a) r, add_assoc]

/-- Claim C10: a `Sum` whose children all fold into the numeric total (here:
all children are `Value` leaves) and whose folded total is exactly 0 is
simplified to `Some(Sum([]))` — an empty `Sum`, not `Value(0)` and not
`None`: the zero total is omitted, no child remains, and the empty result
list is returned as a `Sum`. -/
theorem simplify_zero_total_sum_gives_empty_sum :
    ∀ l : List ℚ, l.sum = 0 →
      Operation.simplify (.Sum (l.map .Value)) = some (.Sum []) := by
  intro l h
  simp [Operation.simplify, sumFold_values l 0 [], h]

/-- Claim C10, witness: the theorem applied to `Sum[2, -2]`. -/
theorem simplify_zero_total_sum_gives_empty_sum_witness :
    Operation.simplify (.Sum [.Value 2, .Value (-2)]) = some (.Sum []) :=
  simplify_zero_total_sum_gives_empty_sum [2, -2] (by norm_num)
